import Mathlib

/-!
Verification development for the "hammer" HTTP load generator
(src/hammer.go).  The definitions below are a shallow embedding of the
coordination core of that program:

* `partition` embeds the work-partition loop of `main` (lines 151-156):
  `remaining := reqs; for i { n := remaining/(conc-i); go send_requests(.., n, ..); remaining -= n }`.
* `WEvent`, `workerLoop`, `send_requests` embed the worker function
  `send_requests` (lines 52-102) as the list of observable events it performs,
  parameterised by oracles for request-construction failure, body-seek results
  and transport-call results.
* `Ev`, `stepFn`, `runEvents`, `initState` embed the unbuffered-channel
  protocol between `main` and the workers (ready_ch / start_ch / done_ch,
  lines 48-50, 69-73, 101, 158-174) as a labelled transition system over
  interleavings.
* `report` embeds the elapsed-time / throughput computation of `main`
  (lines 174-177) over exact rational arithmetic.
-/

namespace Hammer

/-- Embedding of the work-partition loop in `main` (src/hammer.go lines
151-156).  With `rem` requests remaining and `k` workers still to spawn, the
next worker receives `rem / k` iterations and the loop continues with
`rem - rem / k` requests and `k - 1` workers.  `partition R C` is the list of
per-worker iteration counts in spawn order (worker 0 first). -/
def partition : ℕ → ℕ → List ℕ
  | _, 0 => []
  | rem, k + 1 => rem / (k + 1) :: partition (rem - rem / (k + 1)) k

/-- Observable events of one worker executing `send_requests`
(src/hammer.go lines 52-102), in program order:
`ready` is the send on `ready_ch` (line 70), `startRecv` the receive from
`start_ch` (line 73); in iteration `i`, `seek i` is the `body_reader.Seek(0,0)`
call (line 79, only when the body is non-empty), `call i` the `client.Do(req)`
transport call (line 85), `drain i` the read-until-error loop over
`resp.Body` (lines 90-98, abstracted to one event together with its optional
non-EOF diagnostic), `close i` the `resp.Body.Close()` (line 99);
`logErr` is a `log.Println` on an error path and `done` the send on
`done_ch` (line 101). -/
inductive WEvent where
  | ready
  | startRecv
  | seek (i : ℕ)
  | call (i : ℕ)
  | drain (i : ℕ)
  | close (i : ℕ)
  | logErr
  | done
  deriving DecidableEq

/-- Embedding of the injection loop of `send_requests` (lines 75-100).
`hasBody` is whether `body_reader` is non-nil (body non-empty, line 54);
`seekOk j` and `callOk j` are oracles for the outcome of the seek and of the
transport call of iteration `j`.  A failed seek or failed call logs the error
and leaves the loop (`break`); a drain error does not end the loop.  The
result is the list of events of iterations `i, i+1, ...` with `n` iterations
remaining. -/
def workerLoop (hasBody : Bool) (seekOk callOk : ℕ → Bool) : ℕ → ℕ → List WEvent
  | 0, _ => []
  | n + 1, i =>
    (if hasBody then [WEvent.seek i] else []) ++
      (if hasBody && !(seekOk i) then [WEvent.logErr]
       else
        WEvent.call i ::
          (if callOk i then
            WEvent.drain i :: WEvent.close i :: workerLoop hasBody seekOk callOk n (i + 1)
          else [WEvent.logErr]))

/-- Embedding of the whole worker `send_requests` (lines 52-102) as its event
trace.  `reqErr` is whether `http.NewRequest` fails (line 57); on that path
the function logs and returns at line 60, before the ready/start handshake
and without sending on `done_ch`.  Otherwise the worker signals ready, waits
for start, runs the loop on its `iter` assigned iterations and finally sends
exactly one done. -/
def send_requests (reqErr hasBody : Bool) (seekOk callOk : ℕ → Bool) (iter : ℕ) :
    List WEvent :=
  if reqErr then [WEvent.logErr]
  else
    WEvent.ready :: WEvent.startRecv ::
      (workerLoop hasBody seekOk callOk iter 0 ++ [WEvent.done])

/-- Classifier for transport-call events. -/
def isCall : WEvent → Bool
  | .call _ => true
  | _ => false

/-- Classifier for done-signal events. -/
def isDone : WEvent → Bool
  | .done => true
  | _ => false

/-- Coordinator control point in `main` (lines 158-174):
`waitReady k` is the first loop having received `k` of the `C` ready signals;
`sendStart k` is the send loop having sent `k` start signals (entered right
after `begin := time.Now()`); `waitDone k` is the third loop having received
`k` done signals; `finished` is after `end := time.Now()`. -/
inductive CoordPhase where
  | waitReady (k : ℕ)
  | sendStart (k : ℕ)
  | waitDone (k : ℕ)
  | finished
  deriving DecidableEq

/-- Worker control point in `send_requests`: `wReady n` is before the send on
`ready_ch` (line 70) with `n` assigned iterations; `wWaitStart n` is blocked
on `start_ch` (line 73); `wLoop m` is inside the injection loop with `m`
iterations left; `wExit` is after the send on `done_ch` (line 101). -/
inductive WPhase where
  | wReady (n : ℕ)
  | wWaitStart (n : ℕ)
  | wLoop (m : ℕ)
  | wExit
  deriving DecidableEq

/-- Global events of one run: each channel operation on the unbuffered
channels `ready_ch`, `start_ch`, `done_ch` is one rendezvous event naming the
worker involved; `begin` and `endEv` are the two `time.Now()` timestamps of
`main` (lines 163 and 174); `iter w` is one loop iteration of worker `w`
issuing a transport call that succeeds, `fail w` one that errors and makes
the worker leave its loop early. -/
inductive Ev where
  | ready (w : ℕ)
  | begin
  | start (w : ℕ)
  | iter (w : ℕ)
  | fail (w : ℕ)
  | done (w : ℕ)
  | endEv
  deriving DecidableEq

/-- Global state of a run: the coordinator's control point and each worker's
control point (indexed by spawn order). -/
structure SysState where
  coord : CoordPhase
  workers : List WPhase
  deriving DecidableEq

/-- One synchronisation step of the system.  Rendezvous on the unbuffered
channels requires both sides to be at the matching control points: a `ready w`
needs worker `w` before line 70 and the coordinator inside its first loop
(which runs exactly `C` times, line 159); `begin` is the coordinator's
timestamp between its first and second loops; `start w` needs the coordinator
inside the send loop (exactly `C` sends, line 166) and worker `w` blocked at
line 73; `done w` needs worker `w` at line 101 with its loop over and the
coordinator inside its third loop (exactly `C` receives, line 170); `endEv`
is the final timestamp.  Returns `none` when the event is not enabled. -/
def stepFn (s : SysState) (e : Ev) : Option SysState :=
  match e with
  | .ready w =>
    match s.coord, s.workers[w]? with
    | .waitReady k, some (.wReady n) =>
      if k < s.workers.length then
        some ⟨.waitReady (k + 1), s.workers.set w (.wWaitStart n)⟩
      else none
    | _, _ => none
  | .begin =>
    match s.coord with
    | .waitReady k =>
      if k = s.workers.length then some ⟨.sendStart 0, s.workers⟩ else none
    | _ => none
  | .start w =>
    match s.coord, s.workers[w]? with
    | .sendStart k, some (.wWaitStart n) =>
      if k < s.workers.length then
        some ⟨if k + 1 = s.workers.length then .waitDone 0 else .sendStart (k + 1),
          s.workers.set w (.wLoop n)⟩
      else none
    | _, _ => none
  | .iter w =>
    match s.workers[w]? with
    | some (.wLoop (m + 1)) => some ⟨s.coord, s.workers.set w (.wLoop m)⟩
    | _ => none
  | .fail w =>
    match s.workers[w]? with
    | some (.wLoop (_ + 1)) => some ⟨s.coord, s.workers.set w (.wLoop 0)⟩
    | _ => none
  | .done w =>
    match s.coord, s.workers[w]? with
    | .waitDone k, some (.wLoop 0) =>
      if k < s.workers.length then
        some ⟨.waitDone (k + 1), s.workers.set w .wExit⟩
      else none
    | _, _ => none
  | .endEv =>
    match s.coord with
    | .waitDone k =>
      if k = s.workers.length then some ⟨.finished, s.workers⟩ else none
    | _ => none

/-- Run a whole interleaving: threads a list of events through `stepFn`,
failing if any event is not enabled at its point. -/
def runEvents : SysState → List Ev → Option SysState
  | s, [] => some s
  | s, e :: tr =>
    match stepFn s e with
    | some s' => runEvents s' tr
    | none => none

/-- Initial state of a run of `main` with total `R` and concurrency `C`:
the coordinator is about to receive ready signals and the `C` spawned workers
hold the iteration counts computed by the partition loop. -/
def initState (R C : ℕ) : SysState :=
  ⟨.waitReady 0, (partition R C).map .wReady⟩

/-- Classifiers for the global events. -/
def isReadyEv : Ev → Bool
  | .ready _ => true
  | _ => false

def isBeginEv : Ev → Bool
  | .begin => true
  | _ => false

def isStartEv : Ev → Bool
  | .start _ => true
  | _ => false

def isDoneEv : Ev → Bool
  | .done _ => true
  | _ => false

def isEndEv : Ev → Bool
  | .endEv => true
  | _ => false

/-- Coordinator-side trace invariant, as a function of the coordinator's
control point: the control point determines how many events of each kind the
run has performed so far (`len` is the number of workers). -/
def cInvAt (len : ℕ) (tr : List Ev) : CoordPhase → Prop
  | .waitReady k =>
      k ≤ len ∧ tr.countP isReadyEv = k ∧ tr.countP isBeginEv = 0 ∧
      tr.countP isStartEv = 0 ∧ tr.countP isDoneEv = 0 ∧ tr.countP isEndEv = 0
  | .sendStart k =>
      k ≤ len ∧ tr.countP isReadyEv = len ∧
      tr.countP isBeginEv = 1 ∧ tr.countP isStartEv = k ∧
      tr.countP isDoneEv = 0 ∧ tr.countP isEndEv = 0
  | .waitDone k =>
      k ≤ len ∧ tr.countP isReadyEv = len ∧
      tr.countP isBeginEv = 1 ∧ tr.countP isStartEv = len ∧
      tr.countP isDoneEv = k ∧ tr.countP isEndEv = 0
  | .finished =>
      tr.countP isReadyEv = len ∧ tr.countP isBeginEv = 1 ∧
      tr.countP isStartEv = len ∧
      tr.countP isDoneEv = len ∧ tr.countP isEndEv = 1

/-- Coordinator-side trace invariant of a state. -/
def coordInv (s : SysState) (tr : List Ev) : Prop :=
  cInvAt s.workers.length tr s.coord

/-- Worker-side trace invariant, as a function of one worker's control point:
the control point determines which of the worker's own handshake events the
run has performed so far. -/
def wInvAt (tr : List Ev) (w : ℕ) : Option WPhase → Prop
  | some (WPhase.wReady _) =>
      tr.countP (fun e => decide (e = Ev.ready w)) = 0 ∧
      tr.countP (fun e => decide (e = Ev.start w)) = 0
  | some (WPhase.wWaitStart _) =>
      tr.countP (fun e => decide (e = Ev.ready w)) = 1 ∧
      tr.countP (fun e => decide (e = Ev.start w)) = 0
  | some (WPhase.wLoop _) => tr.countP (fun e => decide (e = Ev.start w)) = 1
  | some WPhase.wExit => tr.countP (fun e => decide (e = Ev.start w)) = 1
  | none => True

/-- Worker-side trace invariant of a state. -/
def workerInv (s : SysState) (tr : List Ev) : Prop :=
  ∀ w, wInvAt tr w s.workers[w]?

/-- Full invariant relating a reachable state to the trace that led to it. -/
def sysInv (s : SysState) (tr : List Ev) : Prop :=
  coordInv s tr ∧ workerInv s tr

/-- Concrete complete interleaving for a run with `C = 10`, `R = 3`
(workers 7, 8 and 9 each perform their single iteration). -/
def traceTen : List Ev :=
  [Ev.ready 0, Ev.ready 1, Ev.ready 2, Ev.ready 3, Ev.ready 4, Ev.ready 5,
   Ev.ready 6, Ev.ready 7, Ev.ready 8, Ev.ready 9, Ev.begin,
   Ev.start 0, Ev.start 1, Ev.start 2, Ev.start 3, Ev.start 4, Ev.start 5,
   Ev.start 6, Ev.start 7, Ev.start 8, Ev.start 9,
   Ev.iter 7, Ev.iter 8, Ev.iter 9,
   Ev.done 0, Ev.done 1, Ev.done 2, Ev.done 3, Ev.done 4, Ev.done 5,
   Ev.done 6, Ev.done 7, Ev.done 8, Ev.done 9, Ev.endEv]

/-- Result record of one run, over exact rational arithmetic.  Embeds the
computation of `main` lines 174-177: `elapsedNs` is the elapsed duration in
nanoseconds (Go's `time.Duration` unit), the summary line prints
`reqs`, `elapsed / 1000000000` and `float32(reqs) * 1000000000 / elapsed`
(the float32 arithmetic is modelled exactly over the rationals). -/
structure RunResult where
  reportedRequests : ℕ
  elapsedSeconds : ℚ
  throughput : ℚ
  deriving DecidableEq

/-- Embedding of the summary computation of `main` (lines 174-177). -/
def report (reqs : ℕ) (elapsedNs : ℚ) : RunResult :=
  ⟨reqs, elapsedNs / 1000000000, (reqs : ℚ) * 1000000000 / elapsedNs⟩

lemma partition_zero (rem : ℕ) : partition rem 0 = [] := rfl

lemma partition_succ (rem k : ℕ) :
    partition rem (k + 1) = rem / (k + 1) :: partition (rem - rem / (k + 1)) k := rfl

lemma partition_length (R C : ℕ) : (partition R C).length = C := by
  induction C generalizing R with
  | zero => rfl
  | succ k ih => rw [partition_succ, List.length_cons, ih]

lemma partition_sum (C R : ℕ) (hC : 1 ≤ C) : (partition R C).sum = R := by
  induction C generalizing R with
  | zero => omega
  | succ k ih =>
    rw [partition_succ, List.sum_cons]
    rcases Nat.eq_zero_or_pos k with rfl | hk
    · rw [partition_zero, List.sum_nil]
      omega
    · have h1 : R / (k + 1) ≤ R := Nat.div_le_self _ _
      rw [ih _ hk]
      omega

/-- Key division fact: one round of the loop does not decrease the floor
share.  Here `R / (k + 1 + 1)` is the first worker's share and the remaining
requests are split among `k + 1` workers. -/
lemma div_le_sub_div (R k : ℕ) : R / (k + 1 + 1) ≤ (R - R / (k + 1 + 1)) / (k + 1) := by
  obtain ⟨q, r, hq, hlt, hdm⟩ :
      ∃ q r, R / (k + 1 + 1) = q ∧ r < k + 1 + 1 ∧ (k + 1 + 1) * q + r = R :=
    ⟨R / (k + 1 + 1), R % (k + 1 + 1), rfl, Nat.mod_lt _ (by omega),
      Nat.div_add_mod R (k + 1 + 1)⟩
  rw [hq]
  subst hdm
  have hexp : (k + 1 + 1) * q = (k + 1) * q + q := by ring
  have hsub : (k + 1 + 1) * q + r - q = (k + 1) * q + r := by omega
  rw [hsub, Nat.mul_add_div (by omega)]
  exact Nat.le_add_right q _

/-- Key division fact: one round of the loop does not increase the ceiling
share.  The ceiling of `a / b` is written `(a + (b - 1)) / b`. -/
lemma sub_div_ceil_le (R k : ℕ) :
    ((R - R / (k + 1 + 1)) + k) / (k + 1) ≤ (R + (k + 1)) / (k + 1 + 1) := by
  obtain ⟨q, r, hq, hlt, hdm⟩ :
      ∃ q r, R / (k + 1 + 1) = q ∧ r < k + 1 + 1 ∧ (k + 1 + 1) * q + r = R :=
    ⟨R / (k + 1 + 1), R % (k + 1 + 1), rfl, Nat.mod_lt _ (by omega),
      Nat.div_add_mod R (k + 1 + 1)⟩
  rw [hq]
  subst hdm
  have hexp : (k + 1 + 1) * q = (k + 1) * q + q := by ring
  have e1 : (k + 1 + 1) * q + r - q + k = (k + 1) * q + (r + k) := by omega
  have e2 : (k + 1 + 1) * q + r + (k + 1) = (k + 1 + 1) * q + (r + (k + 1)) := by omega
  rw [e1, Nat.mul_add_div (by omega), e2, Nat.mul_add_div (by omega)]
  rcases Nat.eq_zero_or_pos r with rfl | hpos
  · have hz : (0 + k) / (k + 1) = 0 := Nat.div_eq_of_lt (by omega)
    rw [hz, Nat.add_zero]
    exact Nat.le_add_right q _
  · have hup : (r + k) / (k + 1) ≤ 1 :=
      Nat.le_of_lt_succ (Nat.div_lt_of_lt_mul (by omega))
    have hlo : 1 ≤ (r + (k + 1)) / (k + 1 + 1) := by
      rw [Nat.one_le_div_iff (by omega)]; omega
    calc q + (r + k) / (k + 1) ≤ q + 1 := Nat.add_le_add_left hup q
      _ ≤ q + (r + (k + 1)) / (k + 1 + 1) := Nat.add_le_add_left hlo q

/-- Every assigned count lies between the floor and the ceiling of the
even share `R / C` (stated for `C = k + 1` so the divisor is positive). -/
lemma partition_mem_bounds (k : ℕ) :
    ∀ R a, a ∈ partition R (k + 1) → R / (k + 1) ≤ a ∧ a ≤ (R + k) / (k + 1) := by
  induction k with
  | zero =>
    intro R a ha
    rw [partition_succ, partition_zero] at ha
    simp only [List.mem_singleton] at ha
    subst ha
    constructor <;> simp [Nat.div_one]
  | succ m ih =>
    intro R a ha
    rw [partition_succ] at ha
    rcases List.mem_cons.mp ha with rfl | ha
    · refine ⟨le_refl _, ?_⟩
      exact Nat.div_le_div_right (by omega)
    · have hb := ih (R - R / (m + 1 + 1)) a ha
      have h1 := div_le_sub_div R m
      have h2 := sub_div_ceil_le R m
      omega

/-- The ceiling share exceeds the floor share by at most one. -/
lemma ceil_le_floor_succ (R k : ℕ) : (R + k) / (k + 1) ≤ R / (k + 1) + 1 := by
  have h1 : (R + k) / (k + 1) ≤ (R + (k + 1)) / (k + 1) :=
    Nat.div_le_div_right (by omega)
  have h2 : (R + (k + 1)) / (k + 1) = R / (k + 1) + 1 :=
    Nat.add_div_right _ (by omega)
  omega

/-- Per-index closed form of the partition: the worker at index `i` receives
the requests still remaining (total minus the earlier assignments) divided by
the number of workers not yet served, exactly as the loop computes it. -/
lemma partition_get (C : ℕ) :
    ∀ R i, i < C →
      (partition R C)[i]? = some ((R - ((partition R C).take i).sum) / (C - i)) := by
  induction C with
  | zero => omega
  | succ k ih =>
    intro R i hi
    cases i with
    | zero => simp [partition_succ]
    | succ j =>
      have hj : j < k := by omega
      have hrec := ih (R - R / (k + 1)) j hj
      rw [partition_succ, List.getElem?_cons_succ, hrec, List.take_succ_cons,
        List.sum_cons, Nat.sub_sub, show k + 1 - (j + 1) = k - j from by omega]

/-- The partition list is non-decreasing: each worker's count is at most the
count of every later-spawned worker. -/
lemma partition_pairwise (C : ℕ) : ∀ R, (partition R C).Pairwise (· ≤ ·) := by
  induction C with
  | zero => intro R; rw [partition_zero]; exact List.Pairwise.nil
  | succ k ih =>
    intro R
    rw [partition_succ, List.pairwise_cons]
    refine ⟨?_, ih _⟩
    intro a ha
    cases k with
    | zero => rw [partition_zero] at ha; simp at ha
    | succ m =>
      have hb := (partition_mem_bounds m (R - R / (m + 1 + 1)) a ha).1
      have h1 := div_le_sub_div R m
      omega

/-- C1: Partition completeness.  For every concurrency `C ≥ 1` and total
request count `R ≥ 0`, the per-worker iteration counts produced by the
partition loop of `main` sum to exactly `R`: no request is dropped or
double-counted due to rounding. -/
theorem partition_completeness (C R : ℕ) (hC : 1 ≤ C) : (partition R C).sum = R :=
  partition_sum C R hC

theorem partition_completeness_witness : 1 ≤ 3 ∧ (partition 7 3).sum = 7 :=
  ⟨by decide, partition_completeness 3 7 (by decide)⟩

/-- C2 counterexample: the claim that integer-division remainders are absorbed
by EARLIER workers, which receive the ceiling share, is false.  For `C = 2`,
`R = 3` the loop assigns `[1, 2]`: the first-spawned worker receives the floor
share `1`, not the ceiling share `ceil(3/2) = (3 + (2 - 1)) / 2 = 2`; the
remainder goes to the last worker. -/
theorem partition_policy_counterexample :
    partition 3 2 = [1, 2] ∧ (3 + (2 - 1)) / 2 = 2 ∧ (partition 3 2).headI ≠ 2 := by
  decide

/-- C2 (amended): worker `i` (0-indexed, of `C` total) receives
`remaining / (C - i)` iterations where `remaining` starts at `R` and is
decremented by each assignment in order; the last worker receives exactly
whatever remains; every worker receives either the floor share `R / C` or the
ceiling share `(R + (C - 1)) / C`; and integer-division remainders are
absorbed by LATER workers: the assigned counts are non-decreasing in spawn
order, so floor shares precede ceiling shares. -/
theorem partition_policy (C R : ℕ) (hC : 1 ≤ C) :
    (∀ i, i < C →
      (partition R C)[i]? = some ((R - ((partition R C).take i).sum) / (C - i))) ∧
    (partition R C).getLast? = some (R - ((partition R C).dropLast).sum) ∧
    (∀ a ∈ partition R C, R / C ≤ a ∧ a ≤ (R + (C - 1)) / C) ∧
    (partition R C).Pairwise (· ≤ ·) := by
  obtain ⟨k, rfl⟩ : ∃ k, C = k + 1 := ⟨C - 1, by omega⟩
  have hlen : (partition R (k + 1)).length = k + 1 := partition_length R (k + 1)
  refine ⟨fun i hi => partition_get _ R i hi, ?_, ?_, partition_pairwise _ R⟩
  · rw [List.getLast?_eq_getElem?, List.dropLast_eq_take, hlen]
    have hk := partition_get (k + 1) R k (by omega)
    rw [show k + 1 - 1 = k from rfl, hk, show k + 1 - k = 1 from by omega,
      Nat.div_one]
  · intro a ha
    have hb := partition_mem_bounds k R a ha
    simpa using hb

theorem partition_policy_witness :
    (partition 3 2)[1]? = some ((3 - ((partition 3 2).take 1).sum) / (2 - 1)) :=
  (partition_policy 2 3 (by decide)).1 1 (by decide)

/-- C3: Partition fairness bound.  For every `C ≥ 1` and `R ≥ 0`, any two
workers' assigned iteration counts differ by at most 1. -/
theorem partition_fairness (C R : ℕ) (hC : 1 ≤ C) {a b : ℕ}
    (ha : a ∈ partition R C) (hb : b ∈ partition R C) : a ≤ b + 1 := by
  obtain ⟨k, rfl⟩ : ∃ k, C = k + 1 := ⟨C - 1, by omega⟩
  have h1 := (partition_mem_bounds k R a ha).2
  have h2 := (partition_mem_bounds k R b hb).1
  have h3 := ceil_le_floor_succ R k
  omega

theorem partition_fairness_witness : (3 : ℕ) ≤ 2 + 1 :=
  partition_fairness 3 7 (by decide) (by decide) (by decide)

/-- C10: Implicit monotonicity of the partition.  For every `C` and `R`, the
sequence of assigned iteration counts is non-decreasing in worker index: each
worker's count is at most the count of every later-spawned worker. -/
theorem partition_monotone (C R : ℕ) : (partition R C).Pairwise (· ≤ ·) :=
  partition_pairwise C R

lemma workerLoop_no_done (hasBody : Bool) (seekOk callOk : ℕ → Bool) :
    ∀ n i, (workerLoop hasBody seekOk callOk n i).countP isDone = 0 := by
  intro n
  induction n with
  | zero => intro i; rfl
  | succ m ih =>
    intro i
    cases hasBody <;> by_cases hs : seekOk i <;> by_cases hc : callOk i <;>
      simp [workerLoop, hs, hc, isDone, List.countP_cons, List.countP_append, ih]

/-- Whenever the request object is built successfully, the worker emits
exactly one done signal, regardless of how the loop ends. -/
lemma send_requests_one_done (hasBody : Bool) (seekOk callOk : ℕ → Bool) (iter : ℕ) :
    (send_requests false hasBody seekOk callOk iter).countP isDone = 1 := by
  simp [send_requests, List.countP_cons, List.countP_append, isDone,
    workerLoop_no_done]

/-- Counting transport calls when iteration `i + m` is the first to fail:
the loop performs the `m` successful calls, the failing call, then stops. -/
lemma workerLoop_calls_fail (hasBody : Bool) (seekOk callOk : ℕ → Bool)
    (hs : ∀ j, seekOk j = true) :
    ∀ m i n, m < n → (∀ j, j < m → callOk (i + j) = true) → callOk (i + m) = false →
      (workerLoop hasBody seekOk callOk n i).countP isCall = m + 1 ∧
      WEvent.logErr ∈ workerLoop hasBody seekOk callOk n i := by
  intro m
  induction m with
  | zero =>
    intro i n hn hc1 hc2
    obtain ⟨n', rfl⟩ : ∃ n', n = n' + 1 := ⟨n - 1, by omega⟩
    rw [Nat.add_zero] at hc2
    cases hasBody <;>
      simp [workerLoop, hs i, hc2, isCall, List.countP_cons, List.countP_append]
  | succ m ih =>
    intro i n hn hc1 hc2
    obtain ⟨n', rfl⟩ : ∃ n', n = n' + 1 := ⟨n - 1, by omega⟩
    have hc0 : callOk i = true := by
      have := hc1 0 (by omega)
      rwa [Nat.add_zero] at this
    have hrec := ih (i + 1) n' (by omega)
      (fun j hj => by
        have := hc1 (j + 1) (by omega)
        rwa [show i + (j + 1) = i + 1 + j from by omega] at this)
      (by rwa [show i + (m + 1) = i + 1 + m from by omega] at hc2)
    cases hasBody <;>
      simp [workerLoop, hs i, hc0, isCall, List.countP_cons,
        List.countP_append, hrec.1, hrec.2]

/-- Counting transport calls when every seek and every call succeeds: the
loop performs all `n` assigned iterations. -/
lemma workerLoop_calls_all_ok (hasBody : Bool) (seekOk callOk : ℕ → Bool)
    (hs : ∀ j, seekOk j = true) (hc : ∀ j, callOk j = true) :
    ∀ n i, (workerLoop hasBody seekOk callOk n i).countP isCall = n := by
  intro n
  induction n with
  | zero => intro i; rfl
  | succ m ih =>
    intro i
    cases hasBody <;>
      simp [workerLoop, hs i, hc i, isCall, List.countP_cons,
        List.countP_append, ih]

/-- C5 counterexample: when constructing the initial request object fails
(`http.NewRequest` returns an error, line 57), the worker logs and returns at
line 60 without emitting any Done signal, contradicting the claim that a Done
is emitted on that path too. -/
theorem done_counterexample :
    send_requests true false (fun _ => true) (fun _ => true) 5 = [WEvent.logErr] ∧
    (send_requests true false (fun _ => true) (fun _ => true) 5).countP isDone ≠ 1 := by
  constructor
  · rfl
  · decide

/-- C5 (amended): every spawned worker whose initial request construction
succeeds emits exactly one Done signal before returning, whether its
iteration loop completes normally or terminates early due to an error; a
worker whose request construction fails returns immediately, before the
handshake, and emits no Done signal at all. -/
theorem done_unconditional (hasBody : Bool) (seekOk callOk : ℕ → Bool) (iter : ℕ) :
    (send_requests false hasBody seekOk callOk iter).countP isDone = 1 ∧
    (send_requests true hasBody seekOk callOk iter).countP isDone = 0 := by
  refine ⟨send_requests_one_done hasBody seekOk callOk iter, ?_⟩
  simp [send_requests, isDone]

/-- C7: Early termination on transport error.  For a worker assigned `n`
iterations whose transport call fails on the `k`-th issued request
(`1 ≤ k ≤ n`, earlier calls succeeding and every seek succeeding), the worker
issues exactly `k` transport calls in total, logs the error, abandons the
remaining iterations, and still emits exactly one Done signal. -/
theorem early_termination (hasBody : Bool) (seekOk callOk : ℕ → Bool) (n k : ℕ)
    (hk : 1 ≤ k) (hkn : k ≤ n) (hs : ∀ j, seekOk j = true)
    (hc1 : ∀ j, j + 1 < k → callOk j = true) (hc2 : callOk (k - 1) = false) :
    (send_requests false hasBody seekOk callOk n).countP isCall = k ∧
    WEvent.logErr ∈ send_requests false hasBody seekOk callOk n ∧
    (send_requests false hasBody seekOk callOk n).countP isDone = 1 := by
  have hmain := workerLoop_calls_fail hasBody seekOk callOk hs (k - 1) 0 n (by omega)
    (fun j hj => by
      have := hc1 j (by omega)
      rwa [Nat.zero_add])
    (by rwa [Nat.zero_add])
  refine ⟨?_, ?_, send_requests_one_done hasBody seekOk callOk n⟩
  · simp only [send_requests, if_neg (by simp : ¬ (false : Bool) = true),
      List.countP_cons, List.countP_append, hmain.1]
    simp [isCall]
    omega
  · simp [send_requests, hmain.2]

theorem early_termination_witness :
    (send_requests false true (fun _ => true) (fun j => decide (j + 1 < 3)) 10).countP
        isCall = 3 ∧
    WEvent.logErr ∈ send_requests false true (fun _ => true) (fun j => decide (j + 1 < 3)) 10 ∧
    (send_requests false true (fun _ => true) (fun j => decide (j + 1 < 3)) 10).countP
        isDone = 1 :=
  early_termination true (fun _ => true) (fun j => decide (j + 1 < 3)) 10 3
    (by decide) (by decide) (fun j => rfl) (fun j hj => decide_eq_true hj) (by decide)

lemma workerLoop_shape_ok (seekOk callOk : ℕ → Bool) (m i : ℕ)
    (hs : seekOk i = true) (hc : callOk i = true) :
    workerLoop true seekOk callOk (m + 1) i =
      WEvent.seek i :: WEvent.call i :: WEvent.drain i :: WEvent.close i ::
        workerLoop true seekOk callOk m (i + 1) := by
  simp [workerLoop, hs, hc]

lemma workerLoop_shape_callFail (seekOk callOk : ℕ → Bool) (m i : ℕ)
    (hs : seekOk i = true) (hc : ¬ callOk i = true) :
    workerLoop true seekOk callOk (m + 1) i =
      [WEvent.seek i, WEvent.call i, WEvent.logErr] := by
  simp [workerLoop, hs, hc]

lemma workerLoop_shape_seekFail (seekOk callOk : ℕ → Bool) (m i : ℕ)
    (hs : ¬ seekOk i = true) :
    workerLoop true seekOk callOk (m + 1) i = [WEvent.seek i, WEvent.logErr] := by
  simp [workerLoop, hs]

lemma workerLoop_head_seek (seekOk callOk : ℕ → Bool) :
    ∀ n i e, e ∈ (workerLoop true seekOk callOk n i).head? → e = WEvent.seek i := by
  intro n i e he
  cases n with
  | zero => simp [workerLoop] at he
  | succ m =>
    by_cases hs : seekOk i
    · by_cases hc : callOk i
      · rw [workerLoop_shape_ok seekOk callOk m i hs hc] at he
        simp at he
        first | exact he | exact he.symm
      · rw [workerLoop_shape_callFail seekOk callOk m i hs hc] at he
        simp at he
        first | exact he | exact he.symm
    · rw [workerLoop_shape_seekFail seekOk callOk m i hs] at he
      simp at he
      first | exact he | exact he.symm

/-- Every transport call is immediately preceded by the seek that rewinds the
request body to offset 0 (body non-empty case): adjacent-pair property of the
worker trace. -/
lemma workerLoop_chain_seek (seekOk callOk : ℕ → Bool) :
    ∀ n i, List.Chain' (fun a b => ∀ j, b = WEvent.call j → a = WEvent.seek j)
      (workerLoop true seekOk callOk n i) := by
  intro n
  induction n with
  | zero => intro i; exact List.chain'_nil
  | succ m ih =>
    intro i
    by_cases hs : seekOk i
    · by_cases hc : callOk i
      · rw [workerLoop_shape_ok seekOk callOk m i hs hc, List.chain'_cons,
          List.chain'_cons, List.chain'_cons, List.chain'_cons']
        refine ⟨?_, ?_, ?_, ?_, ih (i + 1)⟩
        · intro j hj; cases hj; rfl
        · intro j hj; cases hj
        · intro j hj; cases hj
        · intro y hy j hj
          rw [workerLoop_head_seek seekOk callOk m (i + 1) y hy] at hj
          cases hj
      · rw [workerLoop_shape_callFail seekOk callOk m i hs hc, List.chain'_cons,
          List.chain'_cons]
        refine ⟨?_, ?_, List.chain'_singleton _⟩
        · intro j hj; cases hj; rfl
        · intro j hj; cases hj
    · rw [workerLoop_shape_seekFail seekOk callOk m i hs, List.chain'_cons]
      refine ⟨?_, List.chain'_singleton _⟩
      intro j hj; cases hj

lemma workerLoop_shape_noBody_ok (seekOk callOk : ℕ → Bool) (m i : ℕ)
    (hc : callOk i = true) :
    workerLoop false seekOk callOk (m + 1) i =
      WEvent.call i :: WEvent.drain i :: WEvent.close i ::
        workerLoop false seekOk callOk m (i + 1) := by
  simp [workerLoop, hc]

lemma workerLoop_shape_noBody_callFail (seekOk callOk : ℕ → Bool) (m i : ℕ)
    (hc : ¬ callOk i = true) :
    workerLoop false seekOk callOk (m + 1) i = [WEvent.call i, WEvent.logErr] := by
  simp [workerLoop, hc]

/-- After every successful transport call the response is drained and then
closed, in that order: adjacent-pair property of the worker trace. -/
lemma workerLoop_chain_drain (hasBody : Bool) (seekOk callOk : ℕ → Bool) :
    ∀ n i, List.Chain' (fun a b =>
        (∀ j, a = WEvent.call j → callOk j = true → b = WEvent.drain j) ∧
        (∀ j, a = WEvent.drain j → b = WEvent.close j))
      (workerLoop hasBody seekOk callOk n i) := by
  cases hasBody
  case false =>
    intro n
    induction n with
    | zero => intro i; exact List.chain'_nil
    | succ m ih =>
      intro i
      by_cases hc : callOk i
      · rw [workerLoop_shape_noBody_ok seekOk callOk m i hc, List.chain'_cons,
          List.chain'_cons, List.chain'_cons']
        refine ⟨⟨?_, ?_⟩, ⟨?_, ?_⟩, ?_, ih (i + 1)⟩
        · intro j hj _; cases hj; rfl
        · intro j hj; cases hj
        · intro j hj; cases hj
        · intro j hj; cases hj; rfl
        · intro y _
          exact ⟨fun j hj => (by cases hj), fun j hj => (by cases hj)⟩
      · rw [workerLoop_shape_noBody_callFail seekOk callOk m i hc, List.chain'_cons]
        refine ⟨⟨?_, ?_⟩, List.chain'_singleton _⟩
        · intro j hj hok; cases hj; exact absurd hok hc
        · intro j hj; cases hj
  case true =>
    intro n
    induction n with
    | zero => intro i; exact List.chain'_nil
    | succ m ih =>
      intro i
      by_cases hs : seekOk i
      · by_cases hc : callOk i
        · rw [workerLoop_shape_ok seekOk callOk m i hs hc, List.chain'_cons,
            List.chain'_cons, List.chain'_cons, List.chain'_cons']
          refine ⟨⟨?_, ?_⟩, ⟨?_, ?_⟩, ⟨?_, ?_⟩, ?_, ih (i + 1)⟩
          · intro j hj; cases hj
          · intro j hj; cases hj
          · intro j hj _; cases hj; rfl
          · intro j hj; cases hj
          · intro j hj; cases hj
          · intro j hj; cases hj; rfl
          · intro y _
            exact ⟨fun j hj => (by cases hj), fun j hj => (by cases hj)⟩
        · rw [workerLoop_shape_callFail seekOk callOk m i hs hc, List.chain'_cons,
            List.chain'_cons]
          refine ⟨⟨?_, ?_⟩, ⟨?_, ?_⟩, List.chain'_singleton _⟩
          · intro j hj; cases hj
          · intro j hj; cases hj
          · intro j hj hok; cases hj; exact absurd hok hc
          · intro j hj; cases hj
      · rw [workerLoop_shape_seekFail seekOk callOk m i hs, List.chain'_cons]
        refine ⟨⟨?_, ?_⟩, List.chain'_singleton _⟩
        · intro j hj; cases hj
        · intro j hj; cases hj

/-- C9: Replayable body and response draining.  In every iteration of a
worker's loop with a non-empty body, the body cursor is rewound (seek to
offset 0) immediately before the transport call is issued, so each iteration
sends the full identical body; and after each successful call the response
payload is drained and only then closed.  When every seek and call succeeds,
all `n` assigned requests are issued. -/
theorem replayable_body (seekOk callOk : ℕ → Bool) (n : ℕ) :
    (∀ j, (workerLoop true seekOk callOk n 0).head? ≠ some (WEvent.call j)) ∧
    List.Chain' (fun a b => ∀ j, b = WEvent.call j → a = WEvent.seek j)
      (workerLoop true seekOk callOk n 0) ∧
    List.Chain' (fun a b =>
        (∀ j, a = WEvent.call j → callOk j = true → b = WEvent.drain j) ∧
        (∀ j, a = WEvent.drain j → b = WEvent.close j))
      (workerLoop true seekOk callOk n 0) ∧
    ((∀ j, seekOk j = true) → (∀ j, callOk j = true) →
      (workerLoop true seekOk callOk n 0).countP isCall = n) := by
  refine ⟨?_, workerLoop_chain_seek seekOk callOk n 0,
    workerLoop_chain_drain true seekOk callOk n 0,
    fun hs hc => workerLoop_calls_all_ok true seekOk callOk hs hc n 0⟩
  intro j hj
  have := workerLoop_head_seek seekOk callOk n 0 (WEvent.call j) (by rw [hj]; rfl)
  cases this

theorem replayable_body_witness :
    (workerLoop true (fun _ => true) (fun _ => true) 5 0).countP isCall = 5 :=
  (replayable_body (fun _ => true) (fun _ => true) 5).2.2.2 (fun _ => rfl)
    (fun _ => rfl)

/-- C6: Reported throughput equals the requested total divided by the elapsed
wall-clock time in seconds (arithmetic modelled exactly over the rationals);
for elapsed 2.0 seconds (2000000000 ns) and 1000 requests the computed
throughput is 500; and the request count used in the computation and summary
line is the requested total: in a run where a worker assigned 10 iterations
fails on its 3rd call only 3 transport calls are issued, yet the summary
still reports 10. -/
theorem throughput_spec (reqs : ℕ) (elapsedNs : ℚ) (h : elapsedNs ≠ 0) :
    (report reqs elapsedNs).throughput =
      (reqs : ℚ) / (report reqs elapsedNs).elapsedSeconds ∧
    (report 1000 2000000000).throughput = 500 ∧
    (report 10 2000000000).reportedRequests = 10 ∧
    (send_requests false true (fun _ => true) (fun j => decide (j + 1 < 3)) 10).countP
        isCall = 3 := by
  refine ⟨?_, by norm_num [report], rfl, by decide⟩
  show (reqs : ℚ) * 1000000000 / elapsedNs = (reqs : ℚ) / (elapsedNs / 1000000000)
  rw [div_div_eq_mul_div]

theorem throughput_spec_witness : (report 1000 2000000000).throughput = 500 :=
  (throughput_spec 1000 2000000000 (by norm_num)).2.1

lemma countP_snoc (p : Ev → Bool) (tr : List Ev) (e : Ev) :
    (tr ++ [e]).countP p = tr.countP p + (if p e then 1 else 0) := by
  simp [List.countP_append, List.countP_cons]

lemma ite_true_eq (a b : ℕ) : (if (true = true) then a else b) = a := rfl

lemma ite_false_eq (a b : ℕ) : (if (false = true) then a else b) = b := rfl

lemma stepFn_length {s s' : SysState} {e : Ev} (h : stepFn s e = some s') :
    s'.workers.length = s.workers.length := by
  cases e <;> simp only [stepFn] at h <;> (repeat' split at h) <;>
    first
      | exact Option.noConfusion h
      | (obtain rfl := Option.some.inj h; simp [List.length_set])

lemma runEvents_append (s : SysState) (l1 l2 : List Ev) :
    runEvents s (l1 ++ l2) = (runEvents s l1).bind (fun m => runEvents m l2) := by
  induction l1 generalizing s with
  | nil => simp [runEvents]
  | cons e t ih =>
    simp only [List.cons_append, runEvents]
    cases h : stepFn s e with
    | none => simp
    | some s' => simp [ih]

lemma runEvents_cons_some {s s' : SysState} {e : Ev} {tr : List Ev} :
    runEvents s (e :: tr) = some s' ↔
      ∃ m, stepFn s e = some m ∧ runEvents m tr = some s' := by
  simp only [runEvents]
  cases h : stepFn s e with
  | none => simp
  | some m => simp

lemma runEvents_length :
    ∀ (tr : List Ev) (s s' : SysState), runEvents s tr = some s' →
      s'.workers.length = s.workers.length := by
  intro tr
  induction tr with
  | nil =>
    intro s s' h
    obtain rfl := Option.some.inj h
    rfl
  | cons e t ih =>
    intro s s' h
    obtain ⟨m, hstep, hrest⟩ := runEvents_cons_some.mp h
    exact (ih m s' hrest).trans (stepFn_length hstep)

lemma stepFn_ready_inv {s s' : SysState} {w : ℕ}
    (h : stepFn s (Ev.ready w) = some s') :
    ∃ k n, s.coord = CoordPhase.waitReady k ∧ k < s.workers.length ∧
      s.workers[w]? = some (WPhase.wReady n) ∧
      s' = ⟨CoordPhase.waitReady (k + 1), s.workers.set w (WPhase.wWaitStart n)⟩ := by
  simp only [stepFn] at h
  split at h
  · split at h
    · rename_i k n hc hw hk
      obtain rfl := Option.some.inj h
      exact ⟨k, n, hc, hk, hw, rfl⟩
    · exact Option.noConfusion h
  · exact Option.noConfusion h

lemma stepFn_begin_inv {s s' : SysState}
    (h : stepFn s Ev.begin = some s') :
    s.coord = CoordPhase.waitReady s.workers.length ∧
      s' = ⟨CoordPhase.sendStart 0, s.workers⟩ := by
  simp only [stepFn] at h
  split at h
  · split at h
    · rename_i k hc hk
      obtain rfl := Option.some.inj h
      exact ⟨hk ▸ hc, rfl⟩
    · exact Option.noConfusion h
  · exact Option.noConfusion h

lemma stepFn_start_inv {s s' : SysState} {w : ℕ}
    (h : stepFn s (Ev.start w) = some s') :
    ∃ k n, s.coord = CoordPhase.sendStart k ∧ k < s.workers.length ∧
      s.workers[w]? = some (WPhase.wWaitStart n) ∧
      s' = ⟨if k + 1 = s.workers.length then CoordPhase.waitDone 0
            else CoordPhase.sendStart (k + 1),
        s.workers.set w (WPhase.wLoop n)⟩ := by
  simp only [stepFn] at h
  split at h
  · split at h
    · rename_i k n hc hw hk
      obtain rfl := Option.some.inj h
      exact ⟨k, n, hc, hk, hw, rfl⟩
    · exact Option.noConfusion h
  · exact Option.noConfusion h

lemma stepFn_iter_inv {s s' : SysState} {w : ℕ}
    (h : stepFn s (Ev.iter w) = some s') :
    ∃ m, s.workers[w]? = some (WPhase.wLoop (m + 1)) ∧
      s' = ⟨s.coord, s.workers.set w (WPhase.wLoop m)⟩ := by
  simp only [stepFn] at h
  split at h
  · rename_i m hw
    obtain rfl := Option.some.inj h
    exact ⟨m, hw, rfl⟩
  · exact Option.noConfusion h

lemma stepFn_fail_inv {s s' : SysState} {w : ℕ}
    (h : stepFn s (Ev.fail w) = some s') :
    ∃ m, s.workers[w]? = some (WPhase.wLoop (m + 1)) ∧
      s' = ⟨s.coord, s.workers.set w (WPhase.wLoop 0)⟩ := by
  simp only [stepFn] at h
  split at h
  · rename_i m hw
    obtain rfl := Option.some.inj h
    exact ⟨m, hw, rfl⟩
  · exact Option.noConfusion h

lemma stepFn_done_inv {s s' : SysState} {w : ℕ}
    (h : stepFn s (Ev.done w) = some s') :
    ∃ k, s.coord = CoordPhase.waitDone k ∧ k < s.workers.length ∧
      s.workers[w]? = some (WPhase.wLoop 0) ∧
      s' = ⟨CoordPhase.waitDone (k + 1), s.workers.set w WPhase.wExit⟩ := by
  simp only [stepFn] at h
  split at h
  · split at h
    · rename_i k hc hw hk
      obtain rfl := Option.some.inj h
      exact ⟨k, hc, hk, hw, rfl⟩
    · exact Option.noConfusion h
  · exact Option.noConfusion h

lemma stepFn_end_inv {s s' : SysState}
    (h : stepFn s Ev.endEv = some s') :
    s.coord = CoordPhase.waitDone s.workers.length ∧
      s' = ⟨CoordPhase.finished, s.workers⟩ := by
  simp only [stepFn] at h
  split at h
  · split at h
    · rename_i k hc hk
      obtain rfl := Option.some.inj h
      exact ⟨hk ▸ hc, rfl⟩
    · exact Option.noConfusion h
  · exact Option.noConfusion h

lemma mem_of_countP_pos {a : Ev} {tr : List Ev}
    (h : 0 < tr.countP (fun e => decide (e = a))) : a ∈ tr := by
  obtain ⟨e, hmem, he⟩ := List.countP_pos_iff.mp h
  rw [decide_eq_true_eq] at he
  exact he ▸ hmem

lemma sysInv_init (R C : ℕ) : sysInv (initState R C) [] := by
  constructor
  · exact ⟨Nat.zero_le _, rfl, rfl, rfl, rfl, rfl⟩
  · intro w
    simp only [initState, List.getElem?_map]
    cases h : (partition R C)[w]? with
    | none => simp [wInvAt, h]
    | some v => simp [wInvAt, h]

/-- Unchanged workers keep their invariant when an event concerning a
different worker (or no worker) is appended to the trace. -/
lemma wInvAt_irrelevant (tr : List Ev) (w' : ℕ) (e : Ev) (p : Option WPhase)
    (hr : decide (e = Ev.ready w') = false) (hs : decide (e = Ev.start w') = false)
    (hold : wInvAt tr w' p) : wInvAt (tr ++ [e]) w' p := by
  cases p with
  | none => trivial
  | some q =>
    cases q <;> simp only [wInvAt] at hold ⊢ <;>
      simp [countP_snoc, hr, hs, hold]

lemma sysInv_step {s s' : SysState} {e : Ev} {tr : List Ev}
    (hinv : sysInv s tr) (h : stepFn s e = some s') : sysInv s' (tr ++ [e]) := by
  obtain ⟨hcoord, hworker⟩ := hinv
  cases e with
  | ready w =>
    obtain ⟨k, n, hc, hk, hw, rfl⟩ := stepFn_ready_inv h
    have hlt : w < s.workers.length := (List.getElem?_eq_some.mp hw).1
    have hcold : cInvAt s.workers.length tr (CoordPhase.waitReady k) := hc ▸ hcoord
    simp only [cInvAt] at hcold
    obtain ⟨h1, h2, h3, h4, h5, h6⟩ := hcold
    constructor
    · simp only [coordInv, List.length_set, cInvAt, countP_snoc, isReadyEv,
        isBeginEv, isStartEv, isDoneEv, isEndEv, if_true, ite_true_eq, ite_false_eq]
      omega
    · intro w'
      show wInvAt (tr ++ [Ev.ready w]) w' ((s.workers.set w (WPhase.wWaitStart n))[w']?)
      rw [List.getElem?_set]
      by_cases hww : w = w'
      · subst hww
        rw [if_pos rfl, if_pos hlt]
        have hwold := hworker w
        rw [hw] at hwold
        simp only [wInvAt] at hwold ⊢
        simp [countP_snoc, hwold.1, hwold.2]
      · rw [if_neg hww]
        exact wInvAt_irrelevant tr w' _ _ (by simp [hww]) (by simp) (hworker w')
  | begin =>
    obtain ⟨hc, rfl⟩ := stepFn_begin_inv h
    have hcold : cInvAt s.workers.length tr (CoordPhase.waitReady s.workers.length) :=
      hc ▸ hcoord
    simp only [cInvAt] at hcold
    obtain ⟨h1, h2, h3, h4, h5, h6⟩ := hcold
    constructor
    · simp only [coordInv, cInvAt, countP_snoc, isReadyEv, isBeginEv, isStartEv,
        isDoneEv, isEndEv, if_true, ite_true_eq, ite_false_eq]
      omega
    · intro w'
      exact wInvAt_irrelevant tr w' _ _ (by simp) (by simp) (hworker w')
  | start w =>
    obtain ⟨k, n, hc, hk, hw, rfl⟩ := stepFn_start_inv h
    have hlt : w < s.workers.length := (List.getElem?_eq_some.mp hw).1
    have hcold : cInvAt s.workers.length tr (CoordPhase.sendStart k) := hc ▸ hcoord
    simp only [cInvAt] at hcold
    obtain ⟨h1, h2, h3, h4, h5, h6⟩ := hcold
    constructor
    · by_cases hfin : k + 1 = s.workers.length
      · simp only [coordInv, if_pos hfin, List.length_set, cInvAt, countP_snoc,
          isReadyEv, isBeginEv, isStartEv, isDoneEv, isEndEv, if_true, ite_true_eq,
          ite_false_eq]
        omega
      · simp only [coordInv, if_neg hfin, List.length_set, cInvAt, countP_snoc,
          isReadyEv, isBeginEv, isStartEv, isDoneEv, isEndEv, if_true, ite_true_eq,
          ite_false_eq]
        omega
    · intro w'
      show wInvAt (tr ++ [Ev.start w]) w' ((s.workers.set w (WPhase.wLoop n))[w']?)
      rw [List.getElem?_set]
      by_cases hww : w = w'
      · subst hww
        rw [if_pos rfl, if_pos hlt]
        have hwold := hworker w
        rw [hw] at hwold
        simp only [wInvAt] at hwold ⊢
        simp [countP_snoc, hwold.2]
      · rw [if_neg hww]
        exact wInvAt_irrelevant tr w' _ _ (by simp) (by simp [hww]) (hworker w')
  | iter w =>
    obtain ⟨m, hw, rfl⟩ := stepFn_iter_inv h
    have hlt : w < s.workers.length := (List.getElem?_eq_some.mp hw).1
    constructor
    · have hcold := hcoord
      simp only [coordInv] at hcold
      cases hsc : s.coord with
      | waitReady k =>
        rw [hsc] at hcold
        simp only [cInvAt] at hcold
        obtain ⟨h1, h2, h3, h4, h5, h6⟩ := hcold
        simp only [coordInv, cInvAt, List.length_set, countP_snoc, isReadyEv,
          isBeginEv, isStartEv, isDoneEv, isEndEv, if_true, ite_true_eq, ite_false_eq]
        omega
      | sendStart k =>
        rw [hsc] at hcold
        simp only [cInvAt] at hcold
        obtain ⟨h1, h2, h3, h4, h5, h6⟩ := hcold
        simp only [coordInv, cInvAt, List.length_set, countP_snoc, isReadyEv,
          isBeginEv, isStartEv, isDoneEv, isEndEv, if_true, ite_true_eq, ite_false_eq]
        omega
      | waitDone k =>
        rw [hsc] at hcold
        simp only [cInvAt] at hcold
        obtain ⟨h1, h2, h3, h4, h5, h6⟩ := hcold
        simp only [coordInv, cInvAt, List.length_set, countP_snoc, isReadyEv,
          isBeginEv, isStartEv, isDoneEv, isEndEv, if_true, ite_true_eq, ite_false_eq]
        omega
      | finished =>
        rw [hsc] at hcold
        simp only [cInvAt] at hcold
        obtain ⟨h1, h2, h3, h4, h5⟩ := hcold
        simp only [coordInv, cInvAt, List.length_set, countP_snoc, isReadyEv,
          isBeginEv, isStartEv, isDoneEv, isEndEv, if_true, ite_true_eq, ite_false_eq]
        omega
    · intro w'
      show wInvAt (tr ++ [Ev.iter w]) w' ((s.workers.set w (WPhase.wLoop m))[w']?)
      rw [List.getElem?_set]
      by_cases hww : w = w'
      · subst hww
        rw [if_pos rfl, if_pos hlt]
        have hwold := hworker w
        rw [hw] at hwold
        simp only [wInvAt] at hwold ⊢
        simp [countP_snoc, hwold]
      · rw [if_neg hww]
        exact wInvAt_irrelevant tr w' _ _ (by simp) (by simp) (hworker w')
  | fail w =>
    obtain ⟨m, hw, rfl⟩ := stepFn_fail_inv h
    have hlt : w < s.workers.length := (List.getElem?_eq_some.mp hw).1
    constructor
    · have hcold := hcoord
      simp only [coordInv] at hcold
      cases hsc : s.coord with
      | waitReady k =>
        rw [hsc] at hcold
        simp only [cInvAt] at hcold
        obtain ⟨h1, h2, h3, h4, h5, h6⟩ := hcold
        simp only [coordInv, cInvAt, List.length_set, countP_snoc, isReadyEv,
          isBeginEv, isStartEv, isDoneEv, isEndEv, if_true, ite_true_eq, ite_false_eq]
        omega
      | sendStart k =>
        rw [hsc] at hcold
        simp only [cInvAt] at hcold
        obtain ⟨h1, h2, h3, h4, h5, h6⟩ := hcold
        simp only [coordInv, cInvAt, List.length_set, countP_snoc, isReadyEv,
          isBeginEv, isStartEv, isDoneEv, isEndEv, if_true, ite_true_eq, ite_false_eq]
        omega
      | waitDone k =>
        rw [hsc] at hcold
        simp only [cInvAt] at hcold
        obtain ⟨h1, h2, h3, h4, h5, h6⟩ := hcold
        simp only [coordInv, cInvAt, List.length_set, countP_snoc, isReadyEv,
          isBeginEv, isStartEv, isDoneEv, isEndEv, if_true, ite_true_eq, ite_false_eq]
        omega
      | finished =>
        rw [hsc] at hcold
        simp only [cInvAt] at hcold
        obtain ⟨h1, h2, h3, h4, h5⟩ := hcold
        simp only [coordInv, cInvAt, List.length_set, countP_snoc, isReadyEv,
          isBeginEv, isStartEv, isDoneEv, isEndEv, if_true, ite_true_eq, ite_false_eq]
        omega
    · intro w'
      show wInvAt (tr ++ [Ev.fail w]) w' ((s.workers.set w (WPhase.wLoop 0))[w']?)
      rw [List.getElem?_set]
      by_cases hww : w = w'
      · subst hww
        rw [if_pos rfl, if_pos hlt]
        have hwold := hworker w
        rw [hw] at hwold
        simp only [wInvAt] at hwold ⊢
        simp [countP_snoc, hwold]
      · rw [if_neg hww]
        exact wInvAt_irrelevant tr w' _ _ (by simp) (by simp) (hworker w')
  | done w =>
    obtain ⟨k, hc, hk, hw, rfl⟩ := stepFn_done_inv h
    have hlt : w < s.workers.length := (List.getElem?_eq_some.mp hw).1
    have hcold : cInvAt s.workers.length tr (CoordPhase.waitDone k) := hc ▸ hcoord
    simp only [cInvAt] at hcold
    obtain ⟨h1, h2, h3, h4, h5, h6⟩ := hcold
    constructor
    · simp only [coordInv, List.length_set, cInvAt, countP_snoc, isReadyEv,
        isBeginEv, isStartEv, isDoneEv, isEndEv, if_true, ite_true_eq, ite_false_eq]
      omega
    · intro w'
      show wInvAt (tr ++ [Ev.done w]) w' ((s.workers.set w WPhase.wExit)[w']?)
      rw [List.getElem?_set]
      by_cases hww : w = w'
      · subst hww
        rw [if_pos rfl, if_pos hlt]
        have hwold := hworker w
        rw [hw] at hwold
        simp only [wInvAt] at hwold ⊢
        simp [countP_snoc, hwold]
      · rw [if_neg hww]
        exact wInvAt_irrelevant tr w' _ _ (by simp) (by simp) (hworker w')
  | endEv =>
    obtain ⟨hc, rfl⟩ := stepFn_end_inv h
    have hcold : cInvAt s.workers.length tr (CoordPhase.waitDone s.workers.length) :=
      hc ▸ hcoord
    simp only [cInvAt] at hcold
    obtain ⟨h1, h2, h3, h4, h5, h6⟩ := hcold
    constructor
    · simp only [coordInv, cInvAt, countP_snoc, isReadyEv, isBeginEv, isStartEv,
        isDoneEv, isEndEv, if_true, ite_true_eq, ite_false_eq]
      omega
    · intro w'
      exact wInvAt_irrelevant tr w' _ _ (by simp) (by simp) (hworker w')

/-- The invariant holds in every reachable configuration. -/
lemma sysInv_holds (R C : ℕ) :
    ∀ (tr : List Ev) (s : SysState),
      runEvents (initState R C) tr = some s → sysInv s tr := by
  intro tr
  induction tr using List.reverseRecOn with
  | nil =>
    intro s h
    obtain rfl := Option.some.inj h
    exact sysInv_init R C
  | append_singleton l e ih =>
    intro s h
    rw [runEvents_append] at h
    cases hm : runEvents (initState R C) l with
    | none => rw [hm] at h; exact Option.noConfusion h
    | some m =>
      rw [hm] at h
      simp only [Option.some_bind] at h
      obtain ⟨s2, hstep, hrest⟩ := runEvents_cons_some.mp h
      obtain rfl := Option.some.inj hrest
      exact sysInv_step (ih m hm) hstep

lemma runEvents_split_mid {R C : ℕ} {l1 l2 : List Ev} {e : Ev} {s : SysState}
    (h : runEvents (initState R C) (l1 ++ e :: l2) = some s) :
    ∃ s1 s2, runEvents (initState R C) l1 = some s1 ∧ stepFn s1 e = some s2 ∧
      runEvents s2 l2 = some s := by
  rw [runEvents_append] at h
  cases hm : runEvents (initState R C) l1 with
  | none => rw [hm] at h; simp at h
  | some s1 =>
    rw [hm, Option.some_bind] at h
    obtain ⟨s2, hstep, hrest⟩ := runEvents_cons_some.mp h
    exact ⟨s1, s2, rfl, hstep, hrest⟩

lemma len_init (R C : ℕ) : (initState R C).workers.length = C := by
  simp [initState, partition_length]

/-- Once the begin timestamp has been taken, no further ready signal can be
received: the coordinator has left its ready-receiving loop for good. -/
lemma no_ready_after_begin (R C : ℕ) (pre post : List Ev) (s : SysState)
    (h : runEvents (initState R C) (pre ++ post) = some s)
    (hpre : 1 ≤ pre.countP isBeginEv) :
    ∀ w, Ev.ready w ∉ post := by
  intro w hmem
  obtain ⟨m1, m2, rfl⟩ := List.append_of_mem hmem
  rw [show pre ++ (m1 ++ Ev.ready w :: m2) = (pre ++ m1) ++ Ev.ready w :: m2 from
    (List.append_assoc pre m1 (Ev.ready w :: m2)).symm] at h
  obtain ⟨s1, s2, h1, hstep, hrest⟩ := runEvents_split_mid h
  obtain ⟨k, n, hc, hk, hw, rfl⟩ := stepFn_ready_inv hstep
  have hinv := sysInv_holds R C _ _ h1
  have hcold : cInvAt s1.workers.length (pre ++ m1) (CoordPhase.waitReady k) :=
    hc ▸ hinv.1
  simp only [cInvAt] at hcold
  have hb := hcold.2.2.1
  rw [List.countP_append] at hb
  omega

/-- Once the end timestamp has been taken, no further done signal can be
received: the coordinator has left its done-receiving loop for good. -/
lemma no_done_after_end (R C : ℕ) (pre post : List Ev) (s : SysState)
    (h : runEvents (initState R C) (pre ++ post) = some s)
    (hpre : 1 ≤ pre.countP isEndEv) :
    ∀ w, Ev.done w ∉ post := by
  intro w hmem
  obtain ⟨m1, m2, rfl⟩ := List.append_of_mem hmem
  rw [show pre ++ (m1 ++ Ev.done w :: m2) = (pre ++ m1) ++ Ev.done w :: m2 from
    (List.append_assoc pre m1 (Ev.done w :: m2)).symm] at h
  obtain ⟨s1, s2, h1, hstep, hrest⟩ := runEvents_split_mid h
  obtain ⟨k, hc, hk, hw, rfl⟩ := stepFn_done_inv hstep
  have hinv := sysInv_holds R C _ _ h1
  have hcold : cInvAt s1.workers.length (pre ++ m1) (CoordPhase.waitDone k) :=
    hc ▸ hinv.1
  simp only [cInvAt] at hcold
  have he := hcold.2.2.2.2.2
  rw [List.countP_append] at he
  omega

/-- C4: Barrier ordering.  In every run (every interleaving accepted by the
channel protocol of `main` and `send_requests`): before any Start signal is
sent all `C` Ready signals have been received and no Ready occurs afterwards;
the begin timestamp is taken after all `C` Ready signals and before any Start
signal, with no Ready after it; the end timestamp is taken only after all `C`
Done signals, with no Done after it (so it is in place before the throughput
computation, which follows it in program order); and no worker performs any
loop iteration (successful `iter` or failing `fail` transport call) before
receiving its Start signal. -/
theorem barrier_ordering (R C : ℕ) (tr : List Ev) (s : SysState)
    (h : runEvents (initState R C) tr = some s) :
    (∀ l1 w l2, tr = l1 ++ Ev.start w :: l2 →
      l1.countP isReadyEv = C ∧ ∀ w', Ev.ready w' ∉ l2) ∧
    (∀ l1 l2, tr = l1 ++ Ev.begin :: l2 →
      l1.countP isReadyEv = C ∧ l1.countP isStartEv = 0 ∧
      ∀ w', Ev.ready w' ∉ l2) ∧
    (∀ l1 l2, tr = l1 ++ Ev.endEv :: l2 →
      l1.countP isDoneEv = C ∧ ∀ w', Ev.done w' ∉ l2) ∧
    (∀ l1 w l2, tr = l1 ++ Ev.iter w :: l2 → Ev.start w ∈ l1) ∧
    (∀ l1 w l2, tr = l1 ++ Ev.fail w :: l2 → Ev.start w ∈ l1) := by
  refine ⟨?_, ?_, ?_, ?_, ?_⟩
  · intro l1 w l2 htr
    subst htr
    obtain ⟨s1, s2, h1, hstep, hrest⟩ := runEvents_split_mid h
    obtain ⟨k, n, hc, hk, hw, rfl⟩ := stepFn_start_inv hstep
    have hinv := sysInv_holds R C _ _ h1
    have hlen : s1.workers.length = C := by
      rw [runEvents_length _ _ _ h1, len_init]
    have hcold : cInvAt s1.workers.length l1 (CoordPhase.sendStart k) :=
      hc ▸ hinv.1
    simp only [cInvAt] at hcold
    refine ⟨by rw [← hlen]; exact hcold.2.1, ?_⟩
    have hb := hcold.2.2.1
    apply no_ready_after_begin R C (l1 ++ [Ev.start w]) l2 s
    · rw [List.append_assoc]
      exact h
    · rw [List.countP_append]
      omega
  · intro l1 l2 htr
    subst htr
    obtain ⟨s1, s2, h1, hstep, hrest⟩ := runEvents_split_mid h
    obtain ⟨hc, rfl⟩ := stepFn_begin_inv hstep
    have hinv := sysInv_holds R C _ _ h1
    have hlen : s1.workers.length = C := by
      rw [runEvents_length _ _ _ h1, len_init]
    have hcold : cInvAt s1.workers.length l1
        (CoordPhase.waitReady s1.workers.length) := hc ▸ hinv.1
    simp only [cInvAt] at hcold
    refine ⟨by rw [← hlen]; exact hcold.2.1, hcold.2.2.2.1, ?_⟩
    apply no_ready_after_begin R C (l1 ++ [Ev.begin]) l2 s
    · rw [List.append_assoc]
      exact h
    · rw [countP_snoc]
      simp [isBeginEv]
  · intro l1 l2 htr
    subst htr
    obtain ⟨s1, s2, h1, hstep, hrest⟩ := runEvents_split_mid h
    obtain ⟨hc, rfl⟩ := stepFn_end_inv hstep
    have hinv := sysInv_holds R C _ _ h1
    have hlen : s1.workers.length = C := by
      rw [runEvents_length _ _ _ h1, len_init]
    have hcold : cInvAt s1.workers.length l1
        (CoordPhase.waitDone s1.workers.length) := hc ▸ hinv.1
    simp only [cInvAt] at hcold
    refine ⟨by rw [← hlen]; exact hcold.2.2.2.2.1, ?_⟩
    apply no_done_after_end R C (l1 ++ [Ev.endEv]) l2 s
    · rw [List.append_assoc]
      exact h
    · rw [countP_snoc]
      simp [isEndEv]
  · intro l1 w l2 htr
    subst htr
    obtain ⟨s1, s2, h1, hstep, hrest⟩ := runEvents_split_mid h
    obtain ⟨m, hw, rfl⟩ := stepFn_iter_inv hstep
    have hinv := sysInv_holds R C _ _ h1
    have hwold := hinv.2 w
    rw [hw] at hwold
    simp only [wInvAt] at hwold
    exact mem_of_countP_pos (by omega)
  · intro l1 w l2 htr
    subst htr
    obtain ⟨s1, s2, h1, hstep, hrest⟩ := runEvents_split_mid h
    obtain ⟨m, hw, rfl⟩ := stepFn_fail_inv hstep
    have hinv := sysInv_holds R C _ _ h1
    have hwold := hinv.2 w
    rw [hw] at hwold
    simp only [wInvAt] at hwold
    exact mem_of_countP_pos (by omega)

theorem barrier_ordering_witness :
    ([Ev.ready 0, Ev.begin] : List Ev).countP isReadyEv = 1 ∧
    Ev.start 0 ∈ ([Ev.ready 0, Ev.begin, Ev.start 0] : List Ev) := by
  have hb := barrier_ordering 2 1
    [Ev.ready 0, Ev.begin, Ev.start 0, Ev.iter 0, Ev.iter 0, Ev.done 0, Ev.endEv]
    ⟨CoordPhase.finished, [WPhase.wExit]⟩ (by decide)
  exact ⟨(hb.1 [Ev.ready 0, Ev.begin] 0 [Ev.iter 0, Ev.iter 0, Ev.done 0, Ev.endEv]
      rfl).1,
    hb.2.2.2.1 [Ev.ready 0, Ev.begin, Ev.start 0] 0 [Ev.iter 0, Ev.done 0, Ev.endEv]
      rfl⟩

/-- C8: Zero-iteration worker.  A worker assigned 0 iterations issues no
transport calls but still performs the full Ready / wait-for-Start / Done
handshake; for `C = 10` and `R = 3` the partition assigns 0 iterations to 7
workers and 1 iteration to each of the other 3; and a run with these
assignments completes normally (the protocol reaches the `finished` state
with every worker exited). -/
theorem zero_iteration_worker :
    (∀ (hasBody : Bool) (seekOk callOk : ℕ → Bool),
      send_requests false hasBody seekOk callOk 0 =
        [WEvent.ready, WEvent.startRecv, WEvent.done]) ∧
    partition 3 10 = [0, 0, 0, 0, 0, 0, 0, 1, 1, 1] ∧
    (partition 3 10).count 0 = 7 ∧
    (partition 3 10).count 1 = 3 ∧
    runEvents (initState 3 10) traceTen =
      some ⟨CoordPhase.finished, List.replicate 10 WPhase.wExit⟩ := by
  exact ⟨fun hasBody seekOk callOk => rfl, by decide, by decide, by decide, by decide⟩

end Hammer
